import Mathlib

/-!
The program `fold` (K&R exercise 1-22): a shallow embedding of `1-fold.c`.

The C program reads standard input and copies it to standard output, adding
line feeds so that a line feed appears no later than at column `break_column`
of every output line.  The embedding follows `1-fold.c` function by function:

* `strequal`, `print_usage`, `parse_command_line`, `fold`, `main` are the
  functions of the source, with the same names;
* a `FILE *` opened for writing is an `OutFile` (what has been written, and
  how many more writes succeed), a `FILE *` opened for reading is an `InFile`
  (what is still unread, and whether the stream ends cleanly or by an error);
* a C string is the `List Char` of its characters before the terminating
  `'\0'`; `int` values are `Int`.  The counter `column` of `fold` never leaves
  the range `0 .. break_column` when `break_column >= 2` (lemma
  `fold_column_range`), so no `int` arithmetic of the program can overflow.
  The one `int` that comes from outside, `const int width = atoi(*arg)`, is
  reduced to 32 bits by `to_int`, and the properties of the command line are
  stated for width tokens whose value fits in an `int`.
-/

set_option autoImplicit false

namespace Fold

/-! ## Streams -/

/-- An output stream: `data` is what has been written so far, `room` is the
number of character writes that still succeed (`none`: every write succeeds). -/
structure OutFile where
  data : List Char
  room : Option Nat
deriving DecidableEq, Repr

/-- An input stream: `data` is what is still unread; once `data` is used up a
read fails with an error when `fault` is set and reports end of file
otherwise; `eof` is the end-of-file indicator of the stream. -/
structure InFile where
  data : List Char
  fault : Bool
  eof : Bool
deriving DecidableEq, Repr

/-- C `putc`: `none` stands for the result `EOF` with the error indicator of
the stream set, `some f` is the stream after a successful write. -/
def putc (ch : Char) (f : OutFile) : Option OutFile :=
  match f.room with
  | none => some ⟨f.data ++ [ch], none⟩
  | some 0 => none
  | some (n + 1) => some ⟨f.data ++ [ch], some n⟩

/-- C `fputs`, whose result the program ignores: the characters are written one
after the other and a character whose write fails is lost. -/
def fputs (s : List Char) (f : OutFile) : OutFile :=
  s.foldl (fun g ch => (putc ch g).getD g) f

/-- C `getc`: `none` stands for `EOF`.  Running off the end of a stream that
ends cleanly sets its end-of-file indicator. -/
def getc (f : InFile) : Option Char × InFile :=
  match f.data with
  | ch :: rest => (some ch, ⟨rest, f.fault, f.eof⟩)
  | [] => (none, ⟨[], f.fault, f.eof || !f.fault⟩)

/-- C `feof`: the end-of-file indicator. -/
def feof (f : InFile) : Bool := f.eof

/-! ## Command line -/

/-- `strequal` of the source.  `*left` is the head of the list, or `'\0'` when
the list is used up; the loop advances both pointers while neither character is
`'\0'` and the two agree, and the result is `*left == *right`. -/
def strequal : List Char → List Char → Int
  | l :: ls, r :: rs =>
    if l ≠ '\x00' ∧ r ≠ '\x00' ∧ l = r then strequal ls rs
    else if l = r then 1 else 0
  | [], r :: _ => if '\x00' = r then 1 else 0
  | l :: _, [] => if l = '\x00' then 1 else 0
  | [], [] => 1

/-- The usage text of `print_usage`. -/
def usage : List Char :=
  ("usage:\n" ++
   "    fold\n" ++
   "        Wrap standard input lines at the 80th column, and print the result to\n" ++
   "        standard output.\n" ++
   "    fold --width WIDTH\n" ++
   "    fold -w WIDTH\n" ++
   "        Wrap standard input lines at the WIDTH column, and print the result to\n" ++
   "        standard output.\n" ++
   "    fold --help\n" ++
   "    fold -h\n" ++
   "        Print this message to standard output.\n").toList

/-- `print_usage` of the source: `fputs(usage, out)`. -/
def print_usage (out : OutFile) : OutFile := fputs usage out

/-- C `isspace` in the "C" locale. -/
def isspace (c : Char) : Bool :=
  c = ' ' || c = '\t' || c = '\n' || c = '\x0b' || c = '\x0c' || c = '\r'

/-- C `isdigit`. -/
def isdigit (c : Char) : Bool := '0' ≤ c && c ≤ '9'

/-- The value of the longest prefix of decimal digits (`0` when there is none). -/
def digitsValue (s : List Char) : Int :=
  (s.takeWhile isdigit).foldl (fun n c => 10 * n + ((c.toNat : Int) - 48)) 0

/-- Modelled from the spec: the C library function `atoi`, which is not part
of the repository.  "Leading whitespace and an optional sign are accepted,
parsing stops at the first non-digit, a non-numeric token parses as 0."  The
value is the mathematical one; C leaves `atoi` undefined when it does not fit
in an `int`. -/
def atoi (s : List Char) : Int :=
  match s.dropWhile isspace with
  | '-' :: t => - digitsValue t
  | '+' :: t => digitsValue t
  | t => digitsValue t

/-- The `int` that holds an integer: the value itself when it lies in
`-2147483648 .. 2147483647`, and its two's-complement reduction to 32 bits
otherwise (where C leaves the result of `atoi` undefined). -/
def to_int (n : Int) : Int := (n + 2147483648) % 4294967296 - 2147483648

/-- What `parse_command_line` leaves behind: its return value, the two streams
and the variable behind the pointer `break_column`. -/
structure ParseResult where
  rc : Int
  out : OutFile
  error : OutFile
  break_column : Int
deriving DecidableEq, Repr

/-- `parse_command_line` of the source.  The list is the range `arg .. end`
that the loop still has to visit.  `width` is an `int`: it holds `to_int` of
the value that `atoi` reads. -/
def parse_command_line : List (List Char) → OutFile → OutFile → Int → ParseResult
  | [], out, error, break_column => ⟨0, out, error, break_column⟩
  | arg :: rest, out, error, break_column =>
    if strequal arg ['-', 'h'] ≠ 0 ∨ strequal arg ['-', '-', 'h', 'e', 'l', 'p'] ≠ 0 then
      ⟨-1, print_usage out, error, break_column⟩
    else if strequal arg ['-', 'w'] ≠ 0
        ∨ strequal arg ['-', '-', 'w', 'i', 'd', 't', 'h'] ≠ 0 then
      match rest with
      | [] => ⟨1, out, print_usage error, break_column⟩
      | value :: rest =>
        let width := to_int (atoi value)
        if width < 2 then ⟨2, out, print_usage error, break_column⟩
        else parse_command_line rest out error width
    else ⟨3, out, print_usage error, break_column⟩

/-! ## The fold engine -/

/-- What `fold` leaves behind: its return value and the two streams. -/
structure FoldResult where
  rc : Int
  out : OutFile
  inp : InFile
deriving DecidableEq, Repr

/-- The `for (;;)` loop of `fold`, by recursion on the unread input; `fault`
and `eof` are the two other fields of the input stream.  Each `PUTC` returns
`1` from `fold` as soon as its `putc` fails. -/
def fold_loop (break_column : Int) (fault eof : Bool) :
    List Char → Int → OutFile → FoldResult
  | [], _, out =>
    let r := getc ⟨[], fault, eof⟩
    ⟨if feof r.2 then 0 else 1, out, r.2⟩
  | ch :: rest, column, out =>
    let column := column + 1
    if column = break_column ∧ ch ≠ '\n' then
      match putc '\n' out with
      | none => ⟨1, out, ⟨rest, fault, eof⟩⟩
      | some out1 =>
        match putc ch out1 with
        | none => ⟨1, out1, ⟨rest, fault, eof⟩⟩
        | some out2 => fold_loop break_column fault eof rest 1 out2
    else if ch = '\n' then
      match putc ch out with
      | none => ⟨1, out, ⟨rest, fault, eof⟩⟩
      | some out1 => fold_loop break_column fault eof rest 0 out1
    else
      match putc ch out with
      | none => ⟨1, out, ⟨rest, fault, eof⟩⟩
      | some out1 => fold_loop break_column fault eof rest column out1

/-- `fold` of the source: `column` starts at `0`. -/
def fold (out : OutFile) (inp : InFile) (break_column : Int) : FoldResult :=
  fold_loop break_column inp.fault inp.eof inp.data 0 out

/-- What `main` leaves behind: the exit status and the three standard streams. -/
structure MainResult where
  status : Int
  stdin : InFile
  stdout : OutFile
  stderr : OutFile
deriving DecidableEq, Repr

/-- `main` of the source; `argv.tail` is `argv + 1`. -/
def main (argv : List (List Char)) (stdin : InFile) (stdout stderr : OutFile) :
    MainResult :=
  let break_column : Int := 80
  let p := parse_command_line argv.tail stdout stderr break_column
  if p.rc ≠ 0 then
    ⟨if p.rc > 0 then 1 else 0, stdin, p.out, p.error⟩
  else
    let f := fold p.out stdin p.break_column
    ⟨f.rc, f.inp, f.out, p.error⟩

/-! ## Auxiliary definitions used to state and prove the properties -/

/-- The characters that `fold` hands to `PUTC`, in order, when no write fails,
starting from the given value of `column`.  Every character carries a mark:
`true` for the line feed written by the forced-break branch (the "inserted"
line feed), `false` for a character copied from the input. -/
def fold_trace (break_column : Int) : Int → List Char → List (Bool × Char)
  | _, [] => []
  | column, ch :: rest =>
    let column := column + 1
    if column = break_column ∧ ch ≠ '\n' then
      (true, '\n') :: (false, ch) :: fold_trace break_column 1 rest
    else if ch = '\n' then
      (false, ch) :: fold_trace break_column 0 rest
    else
      (false, ch) :: fold_trace break_column column rest

/-- The value of `column` after `fold` has processed the given characters,
starting from the given value, when no write fails. -/
def fold_column (break_column : Int) : Int → List Char → Int
  | column, [] => column
  | column, ch :: rest =>
    let column := column + 1
    if column = break_column ∧ ch ≠ '\n' then fold_column break_column 1 rest
    else if ch = '\n' then fold_column break_column 0 rest
    else fold_column break_column column rest

/-- The output of `fold` at width `break_column` on the input `x`, on streams
without I/O failure: the output starts empty and accepts every write, the input
ends cleanly. -/
def folded (break_column : Int) (x : List Char) : List Char :=
  (fold ⟨[], none⟩ ⟨x, false, false⟩ break_column).out.data

/-- With `column` characters already on the current line, no line of `x` reaches
column `break_column` with a character other than a line feed. -/
def fits (break_column : Int) : Int → List Char → Prop
  | _, [] => True
  | column, ch :: rest =>
    if ch = '\n' then fits break_column 0 rest
    else column + 1 < break_column ∧ fits break_column (column + 1) rest

/-- The tokens of a sequence of (flag, value) pairs, in order. -/
def pair_tokens : List (List Char × List Char) → List (List Char)
  | [] => []
  | p :: rest => p.1 :: p.2 :: pair_tokens rest

/-- The token is one of the two spellings of the width flag. -/
def is_width_flag (t : List Char) : Prop :=
  t = ['-', 'w'] ∨ t = ['-', '-', 'w', 'i', 'd', 't', 'h']

/-- Every pair is a width flag followed by a token that `atoi` reads as an
integer that is at least `2` and fits in an `int`. -/
def valid_pairs (ps : List (List Char × List Char)) : Prop :=
  ∀ p ∈ ps, is_width_flag p.1 ∧ 2 ≤ atoi p.2 ∧ atoi p.2 ≤ 2147483647

/-- The value of the last pair, or `default` when there is no pair. -/
def last_width (default : Int) (ps : List (List Char × List Char)) : Int :=
  match ps.getLast? with
  | none => default
  | some p => atoi p.2

/-! ## Lemmas on the fold engine -/

/-- On an output stream that accepts every write, the loop of `fold` consumes
the whole input, appends the unmarked trace to the output, and returns `0`
exactly when the input ends cleanly. -/
theorem fold_loop_no_write_failure (W : Int) (fault eof : Bool) (xs : List Char) :
    ∀ (column : Int) (d : List Char),
      fold_loop W fault eof xs column ⟨d, none⟩ =
        ⟨if (eof || !fault) then 0 else 1,
         ⟨d ++ (fold_trace W column xs).map Prod.snd, none⟩,
         ⟨[], fault, eof || !fault⟩⟩ := by
  induction xs with
  | nil => intro column d; simp [fold_loop, getc, feof, fold_trace]
  | cons ch rest ih =>
    intro column d
    by_cases h1 : column + 1 = W ∧ ch ≠ '\n'
    · simp [fold_loop, fold_trace, putc, h1, ih]
    · by_cases h2 : ch = '\n'
      · simp [fold_loop, fold_trace, putc, h2, ih]
      · have h3 : ¬ column + 1 = W := fun h => h1 ⟨h, h2⟩
        simp [fold_loop, fold_trace, putc, h2, h3, ih]

theorem folded_eq_trace (W : Int) (x : List Char) :
    folded W x = (fold_trace W 0 x).map Prod.snd := by
  simp [folded, fold, fold_loop_no_write_failure]

theorem folded_nil (W : Int) : folded W [] = [] := by
  simp [folded_eq_trace, fold_trace]

theorem fold_trace_marked_is_line_feed (W : Int) (xs : List Char) :
    ∀ (column : Int), ∀ e ∈ fold_trace W column xs, e.1 = true → e.2 = '\n' := by
  induction xs with
  | nil => intro column e he; simp [fold_trace] at he
  | cons ch rest ih =>
    intro column e he hm
    simp only [fold_trace] at he
    split_ifs at he with h1 h2
    · rcases List.mem_cons.1 he with rfl | he
      · rfl
      · rcases List.mem_cons.1 he with rfl | he
        · simp at hm
        · exact ih _ e he hm
    · rcases List.mem_cons.1 he with rfl | he
      · simp at hm
      · exact ih _ e he hm
    · rcases List.mem_cons.1 he with rfl | he
      · simp at hm
      · exact ih _ e he hm

theorem fold_trace_unmarked (W : Int) (xs : List Char) :
    ∀ (column : Int),
      ((fold_trace W column xs).filter (fun e => !e.1)).map Prod.snd = xs := by
  induction xs with
  | nil => intro column; simp [fold_trace]
  | cons ch rest ih =>
    intro column
    simp only [fold_trace]
    split_ifs with h1 h2 <;> simp [ih]

/-- The output of `fold` never brings a character other than a line feed to
column `break_column`. -/
theorem fits_fold_trace (W : Int) (hW : 2 ≤ W) (xs : List Char) :
    ∀ (column : Int), column < W →
      fits W column ((fold_trace W column xs).map Prod.snd) := by
  induction xs with
  | nil => intro column _; simp [fold_trace, fits]
  | cons ch rest ih =>
    intro column hc
    simp only [fold_trace]
    split_ifs with h1 h2
    · have h0 : (1 : Int) < W := by omega
      simp [fits, h0, h1.2]
      exact ih 1 (by omega)
    · simp [fits, h2]
      exact ih 0 (by omega)
    · have h3 : column + 1 ≠ W := fun h => h1 ⟨h, h2⟩
      have h4 : column + 1 < W := by omega
      simp [fits, h2, h4]
      exact ih (column + 1) h4

/-- An input that never reaches column `break_column` with a character other
than a line feed is copied unchanged. -/
theorem fold_trace_of_fits (W : Int) (xs : List Char) :
    ∀ (column : Int), fits W column xs →
      (fold_trace W column xs).map Prod.snd = xs := by
  induction xs with
  | nil => intro column _; simp [fold_trace]
  | cons ch rest ih =>
    intro column hf
    by_cases h2 : ch = '\n'
    · simp [fits, h2] at hf
      simp [fold_trace, h2, ih 0 hf]
    · simp [fits, h2] at hf
      have h3 : ¬ column + 1 = W := by omega
      simp [fold_trace, h2, h3, ih (column + 1) hf.2]

theorem fits_mono (W : Int) (xs : List Char) :
    ∀ (c c' : Int), c' ≤ c → fits W c xs → fits W c' xs := by
  induction xs with
  | nil => intro c c' _ _; simp [fits]
  | cons ch rest ih =>
    intro c c' hcc hf
    by_cases h2 : ch = '\n'
    · simp [fits, h2] at hf ⊢
      exact hf
    · simp [fits, h2] at hf ⊢
      exact ⟨by omega, ih (c + 1) (c' + 1) (by omega) hf.2⟩

theorem fits_tail (W : Int) (ch : Char) (rest : List Char) (c : Int) (hc : 0 ≤ c)
    (hf : fits W c (ch :: rest)) : fits W 0 rest := by
  by_cases h2 : ch = '\n'
  · simp [fits, h2] at hf
    exact hf
  · simp [fits, h2] at hf
    exact fits_mono W rest (c + 1) 0 (by omega) hf.2

theorem fits_run_at_start (W : Int) (xs : List Char) :
    ∀ (c : Int) (seg : List Char), fits W c xs → seg <+: xs → '\n' ∉ seg →
      seg = [] ∨ c + seg.length < W := by
  induction xs with
  | nil =>
    intro c seg _ hp _
    left
    exact List.prefix_nil.1 hp
  | cons ch rest ih =>
    intro c seg hf hp hn
    cases seg with
    | nil => left; rfl
    | cons s seg' =>
      right
      obtain ⟨rfl, hp'⟩ := List.cons_prefix_cons.1 hp
      have hs : s ≠ '\n' := fun h => hn (by simp [h])
      have hn' : '\n' ∉ seg' := fun h => hn (List.mem_cons_of_mem _ h)
      simp [fits, hs] at hf
      rcases ih (c + 1) seg' hf.2 hp' hn' with h | h
      · subst h
        simp
        omega
      · simp only [List.length_cons]
        push_cast
        omega

/-- In a stream that `fits`, every stretch without a line feed is shorter than
`break_column`. -/
theorem fits_run_lt (W : Int) (hW : 0 < W) (xs : List Char) :
    ∀ (c : Int) (seg : List Char), 0 ≤ c → fits W c xs → seg <:+: xs → '\n' ∉ seg →
      (seg.length : Int) < W := by
  induction xs with
  | nil =>
    intro c seg _ _ hi _
    have : seg = [] := List.eq_nil_of_infix_nil hi
    subst this
    simpa using hW
  | cons ch rest ih =>
    intro c seg hc hf hi hn
    rcases List.infix_cons_iff.1 hi with hp | hi'
    · rcases fits_run_at_start W (ch :: rest) c seg hf hp hn with h | h
      · subst h
        simpa using hW
      · omega
    · exact ih 0 seg (le_refl 0) (fits_tail W ch rest c hc hf) hi' hn

theorem fold_trace_no_mark_of_fits (W : Int) (xs : List Char) :
    ∀ (column : Int), fits W column xs → ∀ e ∈ fold_trace W column xs, e.1 = false := by
  induction xs with
  | nil => intro column _ e he; simp [fold_trace] at he
  | cons ch rest ih =>
    intro column hf e he
    by_cases h2 : ch = '\n'
    · simp [fits, h2] at hf
      simp [fold_trace, h2] at he
      rcases he with rfl | he
      · rfl
      · exact ih 0 hf e he
    · simp [fits, h2] at hf
      have h3 : ¬ column + 1 = W := by omega
      simp [fold_trace, h2, h3] at he
      rcases he with rfl | he
      · rfl
      · exact ih (column + 1) hf.2 e he

theorem fits_folded (W : Int) (hW : 2 ≤ W) (x : List Char) : fits W 0 (folded W x) := by
  rw [folded_eq_trace]
  exact fits_fold_trace W hW x 0 (by omega)

/-- For `break_column >= 2` the counter `column` stays in `0 .. break_column - 1`
between two steps of the loop, so the increment never exceeds `break_column`. -/
theorem fold_column_range (W : Int) (hW : 2 ≤ W) (xs : List Char) :
    ∀ (column : Int), 0 ≤ column → column < W →
      0 ≤ fold_column W column xs ∧ fold_column W column xs < W := by
  induction xs with
  | nil => intro column h0 h1; exact ⟨h0, h1⟩
  | cons ch rest ih =>
    intro column h0 h1
    simp only [fold_column]
    split_ifs with h2 h3
    · exact ih 1 (by omega) (by omega)
    · exact ih 0 (le_refl 0) (by omega)
    · have h4 : column + 1 ≠ W := fun h => h2 ⟨h, h3⟩
      exact ih (column + 1) (by omega) (by omega)

theorem fold_trace_append (W : Int) (xs ys : List Char) :
    ∀ (column : Int),
      fold_trace W column (xs ++ ys) =
        fold_trace W column xs ++ fold_trace W (fold_column W column xs) ys := by
  induction xs with
  | nil => intro column; simp [fold_trace, fold_column]
  | cons ch rest ih =>
    intro column
    simp only [List.cons_append, fold_trace, fold_column]
    split_ifs with h1 h2 <;> simp [ih]

theorem fits_of_no_line_feed (W : Int) (xs : List Char) :
    ∀ (column : Int), '\n' ∉ xs → column + xs.length < W → fits W column xs := by
  induction xs with
  | nil => intro column _ _; simp [fits]
  | cons ch rest ih =>
    intro column hn hl
    have hc : ch ≠ '\n' := fun h => hn (by simp [h])
    have hr : '\n' ∉ rest := fun h => hn (List.mem_cons_of_mem _ h)
    simp only [List.length_cons] at hl
    push_cast at hl
    simp only [fits, hc, if_false]
    exact ⟨by omega, ih (column + 1) hr (by omega)⟩

theorem fold_column_of_no_line_feed (W : Int) (xs : List Char) :
    ∀ (column : Int), '\n' ∉ xs → column + xs.length < W →
      fold_column W column xs = column + xs.length := by
  induction xs with
  | nil => intro column _ _; simp [fold_column]
  | cons ch rest ih =>
    intro column hn hl
    have hc : ch ≠ '\n' := fun h => hn (by simp [h])
    have hr : '\n' ∉ rest := fun h => hn (List.mem_cons_of_mem _ h)
    simp only [List.length_cons] at hl ⊢
    push_cast at hl ⊢
    have h3 : ¬ column + 1 = W := by omega
    simp only [fold_column, hc, h3, false_and, if_false]
    rw [ih (column + 1) hr (by omega)]
    omega

/-- A line of `W - 1` characters is copied as it is, and the next character of
the line, if it is not a line feed, is preceded by an inserted line feed and
starts a new output line at column `1`. -/
theorem folded_full_line_append (W : Int) (ys zs : List Char) (hn : '\n' ∉ ys)
    (hl : (ys.length : Int) + 1 = W) :
    folded W (ys ++ zs) = ys ++ (fold_trace W (W - 1) zs).map Prod.snd := by
  have hf : fits W 0 ys := fits_of_no_line_feed W ys 0 hn (by omega)
  have hc : fold_column W 0 ys = W - 1 := by
    rw [fold_column_of_no_line_feed W ys 0 hn (by omega)]
    omega
  rw [folded_eq_trace, fold_trace_append, List.map_append, fold_trace_of_fits W ys 0 hf, hc]

theorem fold_trace_break (W : Int) (c : Char) (zs : List Char) (hc : c ≠ '\n') :
    (fold_trace W (W - 1) (c :: zs)).map Prod.snd
      = '\n' :: c :: (fold_trace W 1 zs).map Prod.snd := by
  simp [fold_trace, hc]

/-- On a line without line feed, of `W` to `2 * (W - 1)` characters, the only
inserted line feed stands before the `W`-th character. -/
theorem folded_break_position (W : Int) (ys zs : List Char) (c : Char)
    (hys : '\n' ∉ ys) (hc : c ≠ '\n') (hzs : '\n' ∉ zs)
    (hlen : (ys.length : Int) + 1 = W) (hz : (zs.length : Int) + 1 < W) :
    folded W (ys ++ c :: zs) = ys ++ '\n' :: c :: zs := by
  rw [folded_full_line_append W ys (c :: zs) hys hlen, fold_trace_break W c zs hc,
    fold_trace_of_fits W zs 1 (fits_of_no_line_feed W zs 1 hzs (by omega))]

theorem main_no_arguments (prog : List Char) (stdin : InFile) (stdout stderr : OutFile) :
    main [prog] stdin stdout stderr =
      ⟨(fold stdout stdin 80).rc, (fold stdout stdin 80).inp, (fold stdout stdin 80).out,
        stderr⟩ := by
  simp [main, parse_command_line]

/-! ## The fold engine: content, width, re-folding -/

/-- C1 (content preservation).  On streams without I/O failure `fold` returns
`0` and its output is the trace of its `PUTC` calls; taking out of that trace
the line feeds written by the forced-break branch leaves the input exactly, and
every character that the forced-break branch adds is a line feed.  This holds
for every `break_column`, in particular for `break_column >= 2`. -/
theorem fold_content_preservation (break_column : Int) (x : List Char) :
    (fold ⟨[], none⟩ ⟨x, false, false⟩ break_column).rc = 0 ∧
    folded break_column x = (fold_trace break_column 0 x).map Prod.snd ∧
    ((fold_trace break_column 0 x).filter (fun e => !e.1)).map Prod.snd = x ∧
    ∀ e ∈ fold_trace break_column 0 x, e.1 = true → e.2 = '\n' := by
  refine ⟨?_, folded_eq_trace break_column x, fold_trace_unmarked break_column x 0,
    fold_trace_marked_is_line_feed break_column x 0⟩
  simp [fold, fold_loop_no_write_failure]

/-- C2 (width bound).  For `break_column >= 2`, every stretch of the output of
`fold` that holds no line feed (in particular every maximal run between two
consecutive line feeds, or between a line feed and an end of the stream) has
at most `break_column` characters. -/
theorem fold_width_bound (break_column : Int) (h : 2 ≤ break_column) (x seg : List Char)
    (hseg : seg <:+: folded break_column x) (hlf : '\n' ∉ seg) :
    (seg.length : Int) ≤ break_column :=
  le_of_lt (fits_run_lt break_column (by omega) (folded break_column x) 0 seg (le_refl 0)
    (fits_folded break_column h x) hseg hlf)

theorem fold_width_bound_witness :
    (2 : Int) ≤ 3 ∧ ['c', 'd'] <:+: folded 3 ['a', 'b', 'c', 'd'] ∧ '\n' ∉ ['c', 'd'] ∧
    ((['c', 'd'] : List Char).length : Int) ≤ 3 :=
  ⟨by decide, ⟨['a', 'b', '\n'], [], by decide⟩, by decide,
    fold_width_bound 3 (by decide) ['a', 'b', 'c', 'd'] ['c', 'd']
      ⟨['a', 'b', '\n'], [], by decide⟩ (by decide)⟩

/-- C3 (idempotence).  For `W >= 2`, folding at width `W` the output of a fold
at width `W` gives that output back, and the second pass never takes the
forced-break branch. -/
theorem fold_idempotent (W : Int) (h : 2 ≤ W) (x : List Char) :
    folded W (folded W x) = folded W x ∧
    ∀ e ∈ fold_trace W 0 (folded W x), e.1 = false := by
  refine ⟨?_, fold_trace_no_mark_of_fits W _ 0 (fits_folded W h x)⟩
  rw [folded_eq_trace W (folded W x)]
  exact fold_trace_of_fits W _ 0 (fits_folded W h x)

theorem fold_idempotent_witness :
    (2 : Int) ≤ 3 ∧
    folded 3 (folded 3 ['a', 'b', 'c', 'd', '\n', 'e']) = folded 3 ['a', 'b', 'c', 'd', '\n', 'e'] ∧
    ∀ e ∈ fold_trace 3 0 (folded 3 ['a', 'b', 'c', 'd', '\n', 'e']), e.1 = false :=
  ⟨by decide, fold_idempotent 3 (by decide) ['a', 'b', 'c', 'd', '\n', 'e']⟩

/-- C4, as stated, fails: at `break_column = 3` the input `abc` + LF is not
passed through; a line feed is inserted before `c`. -/
theorem fold_exact_width_counterexample :
    folded 3 ['a', 'b', 'c', '\n'] = ['a', 'b', '\n', 'c', '\n'] ∧
    folded 3 ['a', 'b', 'c', '\n'] ≠ ['a', 'b', 'c', '\n'] := by
  decide

/-- C4, amended (boundary at `break_column - 1`).  For every `break_column`
(so for `break_column >= 2`), a line of exactly `break_column - 1` characters other than a line feed, followed
by a line feed, is passed through unmodified; a line of exactly `break_column`
such characters followed by a line feed gets one line feed inserted before its
last character. -/
theorem fold_exact_width_boundary (break_column : Int)
    (ys : List Char) (c : Char) (hys : '\n' ∉ ys) (hc : c ≠ '\n')
    (hlen : (ys.length : Int) + 1 = break_column) :
    folded break_column (ys ++ ['\n']) = ys ++ ['\n'] ∧
    folded break_column (ys ++ [c] ++ ['\n']) = ys ++ ['\n', c, '\n'] := by
  constructor
  · rw [folded_full_line_append break_column ys ['\n'] hys hlen]
    simp [fold_trace]
  · rw [List.append_assoc, folded_full_line_append break_column ys _ hys hlen]
    simp [fold_trace, hc]

theorem fold_exact_width_boundary_witness :
    '\n' ∉ ['a', 'b'] ∧ 'c' ≠ '\n' ∧ (((['a', 'b'] : List Char).length : Int) + 1 = 3) ∧
    folded 3 (['a', 'b'] ++ ['\n']) = ['a', 'b'] ++ ['\n'] ∧
    folded 3 (['a', 'b'] ++ ['c'] ++ ['\n']) = ['a', 'b'] ++ ['\n', 'c', '\n'] :=
  ⟨by decide, by decide, by decide,
    fold_exact_width_boundary 3 ['a', 'b'] 'c' (by decide) (by decide) (by decide)⟩

/-- C5, as stated, fails: with no arguments and an input of 81 letters `a`,
standard output is not 80 letters, a line feed and one letter; it is 79
letters, a line feed and two letters. -/
theorem fold_default_break_counterexample :
    (main [['f', 'o', 'l', 'd']] ⟨List.replicate 81 'a', false, false⟩ ⟨[], none⟩
        ⟨[], none⟩).stdout.data
      = List.replicate 79 'a' ++ ['\n'] ++ List.replicate 2 'a' ∧
    (main [['f', 'o', 'l', 'd']] ⟨List.replicate 81 'a', false, false⟩ ⟨[], none⟩
        ⟨[], none⟩).stdout.data
      ≠ List.replicate 80 'a' ++ ['\n'] ++ List.replicate 1 'a' := by
  decide

/-- C5, amended (the break stands before the `break_column`-th character).
With no arguments `main` runs `fold` at width 80, and folding 81 characters
other than a line feed outputs the first 79 of them, one inserted line feed,
then the 80th and the 81st.  In general, on a line of `break_column` or more
characters the forced break is inserted before the character that is the
`break_column`-th of the line. -/
theorem fold_default_break (prog : List Char) (stdin : InFile) (stdout stderr : OutFile)
    (break_column : Int) (ys zs : List Char) (c : Char)
    (hys : '\n' ∉ ys) (hc : c ≠ '\n') (hzs : '\n' ∉ zs)
    (hlen : (ys.length : Int) + 1 = break_column)
    (hz : (zs.length : Int) + 1 < break_column) :
    main [prog] stdin stdout stderr =
      ⟨(fold stdout stdin 80).rc, (fold stdout stdin 80).inp, (fold stdout stdin 80).out,
        stderr⟩ ∧
    (∀ x : List Char, x.length = 81 → '\n' ∉ x →
      folded 80 x = x.take 79 ++ '\n' :: x.drop 79) ∧
    folded break_column (ys ++ c :: zs) = ys ++ '\n' :: c :: zs := by
  refine ⟨main_no_arguments prog stdin stdout stderr, ?_,
    folded_break_position break_column ys zs c hys hc hzs hlen hz⟩
  intro x hx hn
  have hsplit : x.take 79 ++ x.drop 79 = x := List.take_append_drop 79 x
  have hdl : (x.drop 79).length = 2 := by simp [hx]
  have htl : (x.take 79).length = 79 := by simp [hx]
  have hnt : '\n' ∉ x.take 79 := fun h => hn (List.mem_of_mem_take h)
  have hnd : '\n' ∉ x.drop 79 := fun h => hn (List.mem_of_mem_drop h)
  generalize x.take 79 = t at hsplit htl hnt
  generalize x.drop 79 = d at hsplit hdl hnd
  match d, hdl, hnd with
  | [a, b], _, hnd =>
    have ha : a ≠ '\n' := fun h => hnd (by simp [h])
    have hb : '\n' ∉ [b] := fun h => hnd (List.mem_cons_of_mem _ h)
    rw [← hsplit]
    exact folded_break_position 80 t [b] a hnt ha hb (by rw [htl]; rfl) (by simp)

theorem fold_default_break_witness :
    '\n' ∉ List.replicate 79 'a' ∧ 'b' ≠ '\n' ∧ '\n' ∉ ['c'] ∧
    (((List.replicate 79 'a').length : Int) + 1 = 80) ∧
    (((['c'] : List Char).length : Int) + 1 < 80) ∧
    main [['f', 'o', 'l', 'd']] ⟨['x'], false, false⟩ ⟨[], none⟩ ⟨[], none⟩ =
      ⟨(fold ⟨[], none⟩ ⟨['x'], false, false⟩ 80).rc,
        (fold ⟨[], none⟩ ⟨['x'], false, false⟩ 80).inp,
        (fold ⟨[], none⟩ ⟨['x'], false, false⟩ 80).out, ⟨[], none⟩⟩ ∧
    (∀ x : List Char, x.length = 81 → '\n' ∉ x →
      folded 80 x = x.take 79 ++ '\n' :: x.drop 79) ∧
    folded 80 (List.replicate 79 'a' ++ 'b' :: ['c'])
      = List.replicate 79 'a' ++ '\n' :: 'b' :: ['c'] :=
  ⟨by decide, by decide, by decide, by decide, by decide,
    fold_default_break ['f', 'o', 'l', 'd'] ⟨['x'], false, false⟩ ⟨[], none⟩ ⟨[], none⟩
      80 (List.replicate 79 'a') ['c'] 'b' (by decide) (by decide) (by decide) (by decide)
      (by decide)⟩

/-! ## Lemmas on the command line -/

theorem fputs_no_write_failure (s : List Char) :
    ∀ d : List Char, fputs s ⟨d, none⟩ = ⟨d ++ s, none⟩ := by
  induction s with
  | nil => intro d; simp [fputs]
  | cons c s ih =>
    intro d
    have h := ih (d ++ [c])
    have hc : putc c ⟨d, none⟩ = some ⟨d ++ [c], none⟩ := rfl
    simp only [fputs] at h ⊢
    rw [List.foldl_cons, hc, Option.getD_some, h]
    simp

theorem print_usage_no_write_failure (d : List Char) :
    print_usage ⟨d, none⟩ = ⟨d ++ usage, none⟩ :=
  fputs_no_write_failure usage d

theorem usage_ne_nil : usage ≠ [] := by decide

theorem append_usage_ne (d : List Char) : d ++ usage ≠ d := by
  intro h
  exact usage_ne_nil (List.append_right_eq_self.1 h)

theorem width_flag_not_help (t : List Char) (h : is_width_flag t) :
    ¬ (strequal t ['-', 'h'] ≠ 0 ∨ strequal t ['-', '-', 'h', 'e', 'l', 'p'] ≠ 0) := by
  rcases h with rfl | rfl <;> decide

theorem width_flag_recognized (t : List Char) (h : is_width_flag t) :
    strequal t ['-', 'w'] ≠ 0 ∨ strequal t ['-', '-', 'w', 'i', 'd', 't', 'h'] ≠ 0 := by
  rcases h with rfl | rfl <;> decide

theorem last_width_cons (default : Int) (p : List Char × List Char)
    (ps : List (List Char × List Char)) :
    last_width default (p :: ps) = last_width (atoi p.2) ps := by
  cases ps with
  | nil => simp [last_width]
  | cons q qs =>
    simp only [last_width, List.getLast?_cons_cons]
    cases hq : (q :: qs).getLast? with
    | none => simp at hq
    | some r => rfl

theorem to_int_of_range (n : Int) (hmin : -2147483648 ≤ n) (hmax : n ≤ 2147483647) :
    to_int n = n := by
  unfold to_int
  omega

theorem to_int_range (n : Int) : -2147483648 ≤ to_int n ∧ to_int n ≤ 2147483647 := by
  unfold to_int
  omega

theorem parse_width_pair (flag value : List Char) (rest : List (List Char))
    (out error : OutFile) (bc : Int) (hf : is_width_flag flag) (hv : 2 ≤ atoi value)
    (hmax : atoi value ≤ 2147483647) :
    parse_command_line (flag :: value :: rest) out error bc
      = parse_command_line rest out error (atoi value) := by
  have hw : to_int (atoi value) = atoi value := to_int_of_range _ (by omega) hmax
  have hv2 : ¬ to_int (atoi value) < 2 := by omega
  simp only [parse_command_line, if_neg (width_flag_not_help flag hf),
    if_pos (width_flag_recognized flag hf), if_neg hv2]
  rw [hw]

/-- Width tokens whose value does not fit in an `int` (for which the C standard
leaves `atoi` undefined): `width` holds the low 32 bits of the value, so
`2147483648` is rejected as a negative width, `4294967298` is taken as `2` and
`-2147483649` as `2147483647`. -/
theorem parse_width_outside_int (out error : OutFile) (bc : Int) :
    parse_command_line [['-', 'w'], ['2', '1', '4', '7', '4', '8', '3', '6', '4', '8']]
        out error bc
      = ⟨2, out, print_usage error, bc⟩ ∧
    parse_command_line [['-', 'w'], ['4', '2', '9', '4', '9', '6', '7', '2', '9', '8']]
        out error bc
      = ⟨0, out, error, 2⟩ ∧
    parse_command_line [['-', 'w'], ['-', '2', '1', '4', '7', '4', '8', '3', '6', '4', '9']]
        out error bc
      = ⟨0, out, error, 2147483647⟩ := by
  have h1 : to_int (atoi ['2', '1', '4', '7', '4', '8', '3', '6', '4', '8']) = -2147483648 := by
    decide
  have h2 : to_int (atoi ['4', '2', '9', '4', '9', '6', '7', '2', '9', '8']) = 2 := by
    decide
  have h3 : to_int (atoi ['-', '2', '1', '4', '7', '4', '8', '3', '6', '4', '9'])
      = 2147483647 := by
    decide
  have hn := width_flag_not_help ['-', 'w'] (Or.inl rfl)
  have hp := width_flag_recognized ['-', 'w'] (Or.inl rfl)
  refine ⟨?_, ?_, ?_⟩
  · simp only [parse_command_line, if_neg hn, if_pos hp, h1]
    simp
  · simp only [parse_command_line, if_neg hn, if_pos hp, h2]
    simp
  · simp only [parse_command_line, if_neg hn, if_pos hp, h3]
    simp

/-- Scanning runs through a sequence of valid width pairs and arrives at what
follows with the value of the last pair recorded. -/
theorem parse_valid_pairs (ps : List (List Char × List Char)) (rest : List (List Char))
    (out error : OutFile) :
    ∀ bc : Int, valid_pairs ps →
      parse_command_line (pair_tokens ps ++ rest) out error bc
        = parse_command_line rest out error (last_width bc ps) := by
  induction ps with
  | nil => intro bc _; simp [pair_tokens, last_width]
  | cons p ps ih =>
    intro bc hps
    have hp := hps p (List.mem_cons_self _ _)
    have hps2 : valid_pairs ps := fun q hq => hps q (List.mem_cons_of_mem _ hq)
    simp only [pair_tokens, List.cons_append]
    rw [parse_width_pair p.1 p.2 _ out error bc hp.1 hp.2.1 hp.2.2, ih (atoi p.2) hps2,
      last_width_cons]

theorem parse_width_small (flag value : List Char) (rest : List (List Char))
    (out error : OutFile) (bc : Int) (hf : is_width_flag flag) (hv : atoi value < 2)
    (hmin : -2147483648 ≤ atoi value) :
    parse_command_line (flag :: value :: rest) out error bc
      = ⟨2, out, print_usage error, bc⟩ := by
  have hw : to_int (atoi value) = atoi value := to_int_of_range _ hmin (by omega)
  have hv2 : to_int (atoi value) < 2 := by omega
  simp only [parse_command_line, if_neg (width_flag_not_help flag hf),
    if_pos (width_flag_recognized flag hf), if_pos hv2]

theorem main_eq (prog : List Char) (args : List (List Char)) (stdin : InFile)
    (stdout stderr : OutFile) :
    main (prog :: args) stdin stdout stderr =
      if (parse_command_line args stdout stderr 80).rc ≠ 0 then
        ⟨if (parse_command_line args stdout stderr 80).rc > 0 then 1 else 0, stdin,
          (parse_command_line args stdout stderr 80).out,
          (parse_command_line args stdout stderr 80).error⟩
      else
        ⟨(fold (parse_command_line args stdout stderr 80).out stdin
            (parse_command_line args stdout stderr 80).break_column).rc,
          (fold (parse_command_line args stdout stderr 80).out stdin
            (parse_command_line args stdout stderr 80).break_column).inp,
          (fold (parse_command_line args stdout stderr 80).out stdin
            (parse_command_line args stdout stderr 80).break_column).out,
          (parse_command_line args stdout stderr 80).error⟩ := by
  rfl

/-- Every run of `parse_command_line` ends in one of three ways: help (`-1`,
usage printed on `out`), failure (positive, usage printed on `error`), or
continue (`0`, nothing printed). -/
theorem parse_outcome (n : Nat) :
    ∀ (args : List (List Char)), args.length ≤ n → ∀ (out error : OutFile) (bc : Int),
      ((parse_command_line args out error bc).rc = -1
          ∧ (parse_command_line args out error bc).out = print_usage out
          ∧ (parse_command_line args out error bc).error = error)
      ∨ (0 < (parse_command_line args out error bc).rc
          ∧ (parse_command_line args out error bc).out = out
          ∧ (parse_command_line args out error bc).error = print_usage error)
      ∨ ((parse_command_line args out error bc).rc = 0
          ∧ (parse_command_line args out error bc).out = out
          ∧ (parse_command_line args out error bc).error = error) := by
  induction n with
  | zero =>
    intro args hlen out error bc
    have : args = [] := List.length_eq_zero.1 (Nat.le_zero.1 hlen)
    subst this
    right; right
    simp [parse_command_line]
  | succ n ih =>
    intro args hlen out error bc
    match args, hlen with
    | [], _ =>
      right; right
      simp [parse_command_line]
    | arg :: rest, hlen =>
      by_cases h1 : strequal arg ['-', 'h'] ≠ 0 ∨ strequal arg ['-', '-', 'h', 'e', 'l', 'p'] ≠ 0
      · left
        cases rest <;> simp only [parse_command_line, if_pos h1, and_self]
      · by_cases h2 : strequal arg ['-', 'w'] ≠ 0
            ∨ strequal arg ['-', '-', 'w', 'i', 'd', 't', 'h'] ≠ 0
        · match rest, hlen with
          | [], _ =>
            right; left
            simp only [parse_command_line, if_neg h1, if_pos h2, and_self]
            decide
          | value :: rest2, hlen =>
            by_cases h3 : to_int (atoi value) < 2
            · right; left
              simp only [parse_command_line, if_neg h1, if_pos h2, if_pos h3, and_self]
              decide
            · have hl : rest2.length ≤ n := by
                simp only [List.length_cons] at hlen
                omega
              have h := ih rest2 hl out error (to_int (atoi value))
              simp only [parse_command_line, if_neg h1, if_pos h2, if_neg h3]
              exact h
        · right; left
          cases rest <;> simp only [parse_command_line, if_neg h1, if_neg h2, and_self] <;> decide

/-! ## The command line: help, width, errors, side effects -/

/-- C7 (last width wins).  On a token sequence made only of valid width pairs
(each value is at least `2` and fits in an `int`) `parse_command_line` returns
`0`, prints nothing, and leaves in `break_column`
the value of the last pair (the value it was given when there is no pair);
`main`, which starts from `80`, then runs `fold` at the value of the last pair,
or at `80` without any pair. -/
theorem parse_last_width_wins (ps : List (List Char × List Char)) (out error : OutFile)
    (bc : Int) (prog : List Char) (stdin : InFile) (hps : valid_pairs ps) :
    parse_command_line (pair_tokens ps) out error bc = ⟨0, out, error, last_width bc ps⟩ ∧
    main (prog :: pair_tokens ps) stdin out error
      = ⟨(fold out stdin (last_width 80 ps)).rc, (fold out stdin (last_width 80 ps)).inp,
          (fold out stdin (last_width 80 ps)).out, error⟩ := by
  have key : ∀ b : Int, parse_command_line (pair_tokens ps) out error b
      = ⟨0, out, error, last_width b ps⟩ := by
    intro b
    have h := parse_valid_pairs ps [] out error b hps
    rw [List.append_nil] at h
    rw [h]
    simp [parse_command_line]
  refine ⟨key bc, ?_⟩
  rw [main_eq, key 80]
  simp

theorem parse_last_width_wins_witness :
    valid_pairs [(['-', 'w'], ['5']), (['-', 'w'], ['1', '0'])] ∧
    last_width 80 [(['-', 'w'], ['5']), (['-', 'w'], ['1', '0'])] = 10 ∧
    parse_command_line (pair_tokens [(['-', 'w'], ['5']), (['-', 'w'], ['1', '0'])])
        ⟨[], none⟩ ⟨[], none⟩ 80
      = ⟨0, ⟨[], none⟩, ⟨[], none⟩, last_width 80 [(['-', 'w'], ['5']), (['-', 'w'], ['1', '0'])]⟩ ∧
    main (['f'] :: pair_tokens [(['-', 'w'], ['5']), (['-', 'w'], ['1', '0'])])
        ⟨['a'], false, false⟩ ⟨[], none⟩ ⟨[], none⟩
      = ⟨(fold ⟨[], none⟩ ⟨['a'], false, false⟩
            (last_width 80 [(['-', 'w'], ['5']), (['-', 'w'], ['1', '0'])])).rc,
          (fold ⟨[], none⟩ ⟨['a'], false, false⟩
            (last_width 80 [(['-', 'w'], ['5']), (['-', 'w'], ['1', '0'])])).inp,
          (fold ⟨[], none⟩ ⟨['a'], false, false⟩
            (last_width 80 [(['-', 'w'], ['5']), (['-', 'w'], ['1', '0'])])).out,
          ⟨[], none⟩⟩ :=
  have hps : valid_pairs [(['-', 'w'], ['5']), (['-', 'w'], ['1', '0'])] := by
    intro p hp
    rcases List.mem_cons.1 hp with rfl | hp
    · exact ⟨Or.inl rfl, by decide, by decide⟩
    · rw [List.mem_singleton] at hp
      subst hp
      exact ⟨Or.inl rfl, by decide, by decide⟩
  ⟨hps, by decide,
    parse_last_width_wins [(['-', 'w'], ['5']), (['-', 'w'], ['1', '0'])]
      ⟨[], none⟩ ⟨[], none⟩ 80 ['f'] ⟨['a'], false, false⟩ hps⟩

/-- C10 (usage side effects).  On streams that accept every write, for every
token sequence: each of the two streams is left as it was or has the usage text
appended once, at least one of the two is left as it was; the usage is appended
to `out` exactly when the result is negative, to `error` exactly when the
result is positive, and both streams are left as they were exactly when the
result is `0`. -/
theorem parse_usage_side_effects (args : List (List Char)) (d e : List Char) (bc : Int) :
    ((parse_command_line args ⟨d, none⟩ ⟨e, none⟩ bc).out.data = d
      ∨ (parse_command_line args ⟨d, none⟩ ⟨e, none⟩ bc).out.data = d ++ usage) ∧
    ((parse_command_line args ⟨d, none⟩ ⟨e, none⟩ bc).error.data = e
      ∨ (parse_command_line args ⟨d, none⟩ ⟨e, none⟩ bc).error.data = e ++ usage) ∧
    ((parse_command_line args ⟨d, none⟩ ⟨e, none⟩ bc).out.data = d
      ∨ (parse_command_line args ⟨d, none⟩ ⟨e, none⟩ bc).error.data = e) ∧
    ((parse_command_line args ⟨d, none⟩ ⟨e, none⟩ bc).out.data = d ++ usage
      ↔ (parse_command_line args ⟨d, none⟩ ⟨e, none⟩ bc).rc < 0) ∧
    ((parse_command_line args ⟨d, none⟩ ⟨e, none⟩ bc).error.data = e ++ usage
      ↔ 0 < (parse_command_line args ⟨d, none⟩ ⟨e, none⟩ bc).rc) ∧
    (((parse_command_line args ⟨d, none⟩ ⟨e, none⟩ bc).out.data = d
        ∧ (parse_command_line args ⟨d, none⟩ ⟨e, none⟩ bc).error.data = e)
      ↔ (parse_command_line args ⟨d, none⟩ ⟨e, none⟩ bc).rc = 0) := by
  have hd := append_usage_ne d
  have he := append_usage_ne e
  rcases parse_outcome args.length args (le_refl _) ⟨d, none⟩ ⟨e, none⟩ bc with
    ⟨h1, h2, h3⟩ | ⟨h1, h2, h3⟩ | ⟨h1, h2, h3⟩
  · rw [h1, h2, h3, print_usage_no_write_failure]
    simp [hd, usage_ne_nil]
  · rw [h2, h3, print_usage_no_write_failure]
    have h4 : ¬ (parse_command_line args ⟨d, none⟩ ⟨e, none⟩ bc).rc < 0 := by omega
    have h5 : ¬ (parse_command_line args ⟨d, none⟩ ⟨e, none⟩ bc).rc = 0 := by omega
    simp [he, hd.symm, h1, h4, h5]
  · rw [h1, h2, h3]
    simp [he.symm, hd.symm]

/-! ## Lemmas on the state of the loop -/

theorem fold_column_append (W : Int) (xs ys : List Char) :
    ∀ (column : Int),
      fold_column W column (xs ++ ys) = fold_column W (fold_column W column xs) ys := by
  induction xs with
  | nil => intro column; simp [fold_column]
  | cons ch rest ih =>
    intro column
    simp only [List.cons_append, fold_column]
    split_ifs with h1 h2 <;> exact ih _

/-- After the characters `pre` the loop of `fold` goes on with `column` equal to
`fold_column` of `pre` and with the trace of `pre` written. -/
theorem fold_loop_append (W : Int) (fault eof : Bool) (pre rest : List Char) :
    ∀ (column : Int) (d : List Char),
      fold_loop W fault eof (pre ++ rest) column ⟨d, none⟩ =
        fold_loop W fault eof rest (fold_column W column pre)
          ⟨d ++ (fold_trace W column pre).map Prod.snd, none⟩ := by
  induction pre with
  | nil => intro column d; simp [fold_column, fold_trace]
  | cons ch pre ih =>
    intro column d
    by_cases h1 : column + 1 = W ∧ ch ≠ '\n'
    · simp [fold_loop, fold_trace, fold_column, putc, h1, ih]
    · by_cases h2 : ch = '\n'
      · simp [fold_loop, fold_trace, fold_column, putc, h2, ih]
      · have h3 : ¬ column + 1 = W := fun h => h1 ⟨h, h2⟩
        simp [fold_loop, fold_trace, fold_column, putc, h2, h3, ih]

theorem fold_column_line_feed (W : Int) (pre : List Char) (column : Int) :
    fold_column W column (pre ++ ['\n']) = 0 := by
  rw [fold_column_append]
  simp [fold_column]

theorem fold_column_break (W : Int) (pre : List Char) (ch : Char) (column : Int)
    (h : fold_column W column pre + 1 = W ∧ ch ≠ '\n') :
    fold_column W column (pre ++ [ch]) = 1 := by
  rw [fold_column_append]
  simp [fold_column, h]

/-- The last thing written for a character is the character itself. -/
theorem fold_trace_singleton (W : Int) (c : Char) (column : Int) :
    fold_trace W column [c] = [(false, c)]
      ∨ fold_trace W column [c] = [(true, '\n'), (false, c)] := by
  simp only [fold_trace]
  split_ifs with h1 h2 <;> simp

theorem fold_trace_getLast (W : Int) (x : List Char) (c : Char) (column : Int) :
    (fold_trace W column (x ++ [c])).getLast? = some (false, c) := by
  rw [fold_trace_append]
  rcases fold_trace_singleton W c (fold_column W column x) with h | h <;> rw [h] <;> simp

theorem fold_trace_last_unmarked (W : Int) (x : List Char) (column : Int) :
    ∀ e, (fold_trace W column x).getLast? = some e → e.1 = false := by
  intro e he
  rcases List.eq_nil_or_concat x with rfl | ⟨x', c, rfl⟩
  · simp [fold_trace] at he
  · rw [List.concat_eq_append, fold_trace_getLast] at he
    cases he
    rfl

theorem fold_trace_line_feed (W : Int) (x y : List Char) (column : Int) :
    fold_trace W column (x ++ ['\n'] ++ y)
      = fold_trace W column x ++ (false, '\n') :: fold_trace W 0 y := by
  rw [List.append_assoc, fold_trace_append]
  simp [fold_trace]

/-! ## Lemmas on I/O failure -/

theorem putc_room_succ (c : Char) (d : List Char) (k : Nat) :
    putc c ⟨d, some (k + 1)⟩ = some ⟨d ++ [c], some k⟩ := rfl

theorem putc_room_zero (c : Char) (d : List Char) : putc c ⟨d, some 0⟩ = none := rfl

/-- When the output stream has room for every write of the trace, the loop
consumes the whole input and writes the whole trace. -/
theorem fold_loop_room_enough (W : Int) (fault eof : Bool) (xs : List Char) :
    ∀ (column : Int) (d : List Char) (k : Nat), (fold_trace W column xs).length ≤ k →
      fold_loop W fault eof xs column ⟨d, some k⟩ =
        ⟨if (eof || !fault) then 0 else 1,
         ⟨d ++ (fold_trace W column xs).map Prod.snd,
           some (k - (fold_trace W column xs).length)⟩,
         ⟨[], fault, eof || !fault⟩⟩ := by
  induction xs with
  | nil => intro column d k _; simp [fold_loop, getc, feof, fold_trace]
  | cons ch rest ih =>
    intro column d k hk
    by_cases h1 : column + 1 = W ∧ ch ≠ '\n'
    · simp only [fold_trace, if_pos h1, List.length_cons] at hk
      obtain ⟨j, rfl⟩ : ∃ j, k = j + 2 := ⟨k - 2, by omega⟩
      simp only [fold_loop, if_pos h1, putc_room_succ, fold_trace,
        ih 1 (d ++ ['\n'] ++ [ch]) j (by omega)]
      simp
    · by_cases h2 : ch = '\n'
      · simp only [fold_trace, if_neg h1, if_pos h2, List.length_cons] at hk
        obtain ⟨j, rfl⟩ : ∃ j, k = j + 1 := ⟨k - 1, by omega⟩
        simp only [fold_loop, if_neg h1, if_pos h2, putc_room_succ, fold_trace,
          ih 0 (d ++ [ch]) j (by omega)]
        simp
      · simp only [fold_trace, if_neg h1, if_neg h2, List.length_cons] at hk
        obtain ⟨j, rfl⟩ : ∃ j, k = j + 1 := ⟨k - 1, by omega⟩
        simp only [fold_loop, if_neg h1, if_neg h2, putc_room_succ, fold_trace,
          ih (column + 1) (d ++ [ch]) j (by omega)]
        simp

/-- When the output stream runs out of room, the loop stops at the character
one of whose writes fails: it returns `1`, what was written is the part of the
trace that fitted, and what follows that character is left unread. -/
theorem fold_loop_room_short (W : Int) (fault eof : Bool) (xs : List Char) :
    ∀ (column : Int) (d : List Char) (k : Nat), k < (fold_trace W column xs).length →
      ∃ (pre : List Char) (ch : Char) (post : List Char),
        xs = pre ++ ch :: post ∧
        (fold_trace W column pre).length ≤ k ∧
        k < (fold_trace W column (pre ++ [ch])).length ∧
        fold_loop W fault eof xs column ⟨d, some k⟩ =
          ⟨1, ⟨d ++ ((fold_trace W column xs).map Prod.snd).take k, some 0⟩,
            ⟨post, fault, eof⟩⟩ := by
  induction xs with
  | nil => intro column d k hk; simp [fold_trace] at hk
  | cons ch rest ih =>
    intro column d k hk
    by_cases h1 : column + 1 = W ∧ ch ≠ '\n'
    · match k, hk with
      | 0, _ =>
        refine ⟨[], ch, rest, rfl, by simp [fold_trace], by simp [fold_trace, h1], ?_⟩
        simp [fold_loop, h1, putc_room_zero]
      | 1, _ =>
        refine ⟨[], ch, rest, rfl, by simp [fold_trace], by simp [fold_trace, h1], ?_⟩
        simp [fold_loop, fold_trace, h1, putc_room_zero, putc_room_succ]
      | j + 2, hk =>
        simp only [fold_trace, if_pos h1, List.length_cons] at hk
        obtain ⟨pre, c, post, hx, hle, hlt, hr⟩ :=
          ih 1 (d ++ ['\n'] ++ [ch]) j (by omega)
        refine ⟨ch :: pre, c, post, by rw [hx]; rfl, ?_, ?_, ?_⟩
        · simp only [fold_trace, if_pos h1, List.length_cons]
          omega
        · simp only [List.cons_append, fold_trace, if_pos h1, List.length_cons, List.append_eq]
          omega
        · simp only [fold_loop, if_pos h1, putc_room_succ, fold_trace, hr]
          simp
    · by_cases h2 : ch = '\n'
      · match k, hk with
        | 0, _ =>
          refine ⟨[], ch, rest, rfl, by simp [fold_trace], by simp [fold_trace, h2], ?_⟩
          simp [fold_loop, h2, putc_room_zero]
        | j + 1, hk =>
          simp only [fold_trace, if_neg h1, if_pos h2, List.length_cons] at hk
          obtain ⟨pre, c, post, hx, hle, hlt, hr⟩ := ih 0 (d ++ [ch]) j (by omega)
          refine ⟨ch :: pre, c, post, by rw [hx]; rfl, ?_, ?_, ?_⟩
          · simp only [fold_trace, if_neg h1, if_pos h2, List.length_cons]
            omega
          · simp only [List.cons_append, fold_trace, if_neg h1, if_pos h2, List.length_cons,
              List.append_eq]
            omega
          · simp only [fold_loop, if_neg h1, if_pos h2, putc_room_succ, fold_trace, hr]
            simp
      · have h3 : ¬ column + 1 = W := fun h => h1 ⟨h, h2⟩
        match k, hk with
        | 0, _ =>
          refine ⟨[], ch, rest, rfl, by simp [fold_trace], by simp [fold_trace, h3, h2], ?_⟩
          simp [fold_loop, h3, h2, putc_room_zero]
        | j + 1, hk =>
          simp only [fold_trace, if_neg h1, if_neg h2, List.length_cons] at hk
          obtain ⟨pre, c, post, hx, hle, hlt, hr⟩ := ih (column + 1) (d ++ [ch]) j (by omega)
          refine ⟨ch :: pre, c, post, by rw [hx]; rfl, ?_, ?_, ?_⟩
          · simp only [fold_trace, if_neg h1, if_neg h2, List.length_cons]
            omega
          · simp only [List.cons_append, fold_trace, if_neg h1, if_neg h2, List.length_cons,
              List.append_eq]
            omega
          · simp only [fold_loop, if_neg h1, if_neg h2, putc_room_succ, fold_trace, hr]
            simp

/-- The return value of `fold` is `0` exactly when the input ends cleanly and
the output stream has room for every write of the trace. -/
theorem fold_rc_zero_iff (W : Int) (x d : List Char) (fault : Bool) (room : Option Nat) :
    (fold ⟨d, room⟩ ⟨x, fault, false⟩ W).rc = 0 ↔
      fault = false ∧ ∀ k, room = some k → (fold_trace W 0 x).length ≤ k := by
  cases room with
  | none =>
    simp only [fold, fold_loop_no_write_failure]
    cases fault <;> simp
  | some k =>
    by_cases hk : (fold_trace W 0 x).length ≤ k
    · simp only [fold, fold_loop_room_enough W fault false x 0 d k hk]
      cases fault <;> simp [hk]
    · obtain ⟨pre, ch, post, _, _, _, hr⟩ :=
        fold_loop_room_short W fault false x 0 d k (by omega)
      simp only [fold, hr]
      simp [hk]

theorem fold_rc_zero_or_one (W : Int) (out : OutFile) (inp : InFile) :
    (fold out inp W).rc = 0 ∨ (fold out inp W).rc = 1 := by
  obtain ⟨d, room⟩ := out
  obtain ⟨x, fault, eof⟩ := inp
  cases room with
  | none =>
    simp only [fold, fold_loop_no_write_failure]
    cases eof <;> cases fault <;> simp
  | some k =>
    by_cases hk : (fold_trace W 0 x).length ≤ k
    · simp only [fold, fold_loop_room_enough W fault eof x 0 d k hk]
      cases eof <;> cases fault <;> simp
    · obtain ⟨pre, ch, post, _, _, _, hr⟩ :=
        fold_loop_room_short W fault eof x 0 d k (by omega)
      simp only [fold, hr]
      simp

/-! ## The fold engine: failures, exit codes, end of input, state -/

/-- C11 (fold failure semantics).  The input is a finite sequence `x` that ends
cleanly (`fault = false`) or by a read error, the output accepts `room` more
writes (`none`: all of them).  `fold` returns `0` exactly when the input ends
cleanly and every write of the trace finds room, and returns `1` otherwise.
When every write finds room the whole trace is written and the whole input is
read.  When the room is `k`, smaller than the trace, `fold` returns `1`, the
output is exactly the first `k` characters of the trace, and the input is left
unread from just after the character one of whose writes failed. -/
theorem fold_failure_semantics (break_column : Int) (x d : List Char) (fault : Bool)
    (room : Option Nat) :
    ((fold ⟨d, room⟩ ⟨x, fault, false⟩ break_column).rc = 0 ↔
      fault = false ∧ ∀ k, room = some k → (fold_trace break_column 0 x).length ≤ k) ∧
    ((fold ⟨d, room⟩ ⟨x, fault, false⟩ break_column).rc = 0
      ∨ (fold ⟨d, room⟩ ⟨x, fault, false⟩ break_column).rc = 1) ∧
    ((∀ k, room = some k → (fold_trace break_column 0 x).length ≤ k) →
      (fold ⟨d, room⟩ ⟨x, fault, false⟩ break_column).out.data
          = d ++ (fold_trace break_column 0 x).map Prod.snd
        ∧ (fold ⟨d, room⟩ ⟨x, fault, false⟩ break_column).inp.data = []) ∧
    (∀ k, room = some k → k < (fold_trace break_column 0 x).length →
      (fold ⟨d, room⟩ ⟨x, fault, false⟩ break_column).rc = 1
        ∧ (fold ⟨d, room⟩ ⟨x, fault, false⟩ break_column).out
            = ⟨d ++ ((fold_trace break_column 0 x).map Prod.snd).take k, some 0⟩
        ∧ ∃ (pre : List Char) (ch : Char) (post : List Char),
            x = pre ++ ch :: post
              ∧ (fold ⟨d, room⟩ ⟨x, fault, false⟩ break_column).inp = ⟨post, fault, false⟩
              ∧ (fold_trace break_column 0 pre).length ≤ k
              ∧ k < (fold_trace break_column 0 (pre ++ [ch])).length) := by
  refine ⟨fold_rc_zero_iff break_column x d fault room,
    fold_rc_zero_or_one break_column _ _, ?_, ?_⟩
  · intro h
    cases room with
    | none => simp [fold, fold_loop_no_write_failure]
    | some k =>
      simp [fold, fold_loop_room_enough break_column fault false x 0 d k (h k rfl)]
  · intro k hroom hk
    subst hroom
    obtain ⟨pre, ch, post, hx, hle, hlt, hr⟩ :=
      fold_loop_room_short break_column fault false x 0 d k hk
    have hf : fold ⟨d, some k⟩ ⟨x, fault, false⟩ break_column
        = ⟨1, ⟨d ++ ((fold_trace break_column 0 x).map Prod.snd).take k, some 0⟩,
            ⟨post, fault, false⟩⟩ := hr
    rw [hf]
    exact ⟨rfl, rfl, pre, ch, post, hx, rfl, hle, hlt⟩

theorem fold_failure_semantics_witness :
    (fold ⟨[], some 4⟩ ⟨['a', 'b', 'c', 'd', 'e'], false, false⟩ 3).rc = 1
      ∧ (fold ⟨[], some 4⟩ ⟨['a', 'b', 'c', 'd', 'e'], false, false⟩ 3).out
          = ⟨['a', 'b', '\n', 'c'], some 0⟩ :=
  ⟨((fold_failure_semantics 3 ['a', 'b', 'c', 'd', 'e'] [] false (some 4)).2.2.2
      4 rfl (by decide)).1,
    ((fold_failure_semantics 3 ['a', 'b', 'c', 'd', 'e'] [] false (some 4)).2.2.2
      4 rfl (by decide)).2.1⟩

/-- C12 (exit codes).  The exit status of `main` is `0` or `1`.  It is `0`
exactly when `parse_command_line` returns a negative value (help), or returns
`0` and `fold` returns `0`, which by C11 means that the input ends cleanly and
every write finds room.  When `parse_command_line` returns a nonzero value,
`fold` is not run: standard input is left unread and standard output holds
only what `parse_command_line` wrote; when it returns `0`, `main` is `fold` at
the width that `parse_command_line` recorded. -/
theorem main_exit_codes (prog : List Char) (args : List (List Char)) (x : List Char)
    (fault : Bool) (stdout stderr : OutFile) :
    ((main (prog :: args) ⟨x, fault, false⟩ stdout stderr).status = 0
      ∨ (main (prog :: args) ⟨x, fault, false⟩ stdout stderr).status = 1) ∧
    ((main (prog :: args) ⟨x, fault, false⟩ stdout stderr).status = 0 ↔
      (parse_command_line args stdout stderr 80).rc < 0
      ∨ ((parse_command_line args stdout stderr 80).rc = 0
          ∧ (fold stdout ⟨x, fault, false⟩
              (parse_command_line args stdout stderr 80).break_column).rc = 0)) ∧
    ((main (prog :: args) ⟨x, fault, false⟩ stdout stderr).status = 0 ↔
      (parse_command_line args stdout stderr 80).rc < 0
      ∨ ((parse_command_line args stdout stderr 80).rc = 0 ∧ fault = false
          ∧ ∀ k, stdout.room = some k →
              (fold_trace (parse_command_line args stdout stderr 80).break_column 0 x).length
                ≤ k)) ∧
    ((parse_command_line args stdout stderr 80).rc ≠ 0 →
      (main (prog :: args) ⟨x, fault, false⟩ stdout stderr).stdin = ⟨x, fault, false⟩
        ∧ (main (prog :: args) ⟨x, fault, false⟩ stdout stderr).stdout
            = (parse_command_line args stdout stderr 80).out) ∧
    ((parse_command_line args stdout stderr 80).rc = 0 →
      main (prog :: args) ⟨x, fault, false⟩ stdout stderr
        = ⟨(fold stdout ⟨x, fault, false⟩
              (parse_command_line args stdout stderr 80).break_column).rc,
            (fold stdout ⟨x, fault, false⟩
              (parse_command_line args stdout stderr 80).break_column).inp,
            (fold stdout ⟨x, fault, false⟩
              (parse_command_line args stdout stderr 80).break_column).out,
            stderr⟩) := by
  obtain ⟨d, room⟩ := stdout
  have hiff := fold_rc_zero_iff (parse_command_line args ⟨d, room⟩ stderr 80).break_column
    x d fault room
  have h01 := fold_rc_zero_or_one (parse_command_line args ⟨d, room⟩ stderr 80).break_column
    ⟨d, room⟩ ⟨x, fault, false⟩
  rw [main_eq]
  rcases parse_outcome args.length args (le_refl _) ⟨d, room⟩ stderr 80 with
    ⟨h1, h2, h3⟩ | ⟨h1, h2, h3⟩ | ⟨h1, h2, h3⟩
  · simp [h1]
  · have h4 : (parse_command_line args ⟨d, room⟩ stderr 80).rc ≠ 0 := by omega
    have h5 : ¬ (parse_command_line args ⟨d, room⟩ stderr 80).rc < 0 := by omega
    simp [h1, h4, h5]
  · rw [← hiff]
    simp only [h1, h2, h3]
    simp [h01]

theorem main_exit_codes_witness :
    (main [['f'], ['-', 'w'], ['3']] ⟨['a', 'b', 'c'], false, false⟩ ⟨[], some 2⟩
        ⟨[], none⟩).status = 1 :=
  ((main_exit_codes ['f'] [['-', 'w'], ['3']] ['a', 'b', 'c'] false ⟨[], some 2⟩
      ⟨[], none⟩).1).resolve_left (by decide)

/-- C14 (no trailing terminator).  For every `break_column`: on the empty
input `fold` writes nothing and returns `0`; on every input, with no I/O
failure, `fold` returns `0` after reading the whole input; and on a non-empty
input the last character written is the last character of the input, written
by a branch other than the insertion of a line feed. -/
theorem fold_no_trailing_terminator (break_column : Int) (x : List Char) (c : Char) :
    fold ⟨[], none⟩ ⟨[], false, false⟩ break_column = ⟨0, ⟨[], none⟩, ⟨[], false, true⟩⟩ ∧
    folded break_column [] = [] ∧
    (fold ⟨[], none⟩ ⟨x, false, false⟩ break_column).rc = 0 ∧
    (fold ⟨[], none⟩ ⟨x, false, false⟩ break_column).inp.data = [] ∧
    (folded break_column (x ++ [c])).getLast? = some c ∧
    (fold_trace break_column 0 (x ++ [c])).getLast? = some (false, c) := by
  refine ⟨rfl, folded_nil break_column, ?_, ?_, ?_, fold_trace_getLast break_column x c 0⟩
  · simp [fold, fold_loop_no_write_failure]
  · simp [fold, fold_loop_no_write_failure]
  · rw [folded_eq_trace, List.getLast?_map, fold_trace_getLast]
    rfl

/-- C15 (column invariant).  For `break_column >= 2` and every sequence `pre`
of characters processed so far: `column` starts at `0`; after `pre` the loop of
`fold` continues with `column = fold_column break_column 0 pre`, which lies
between `0` and `break_column`; it is `0` right after a line feed and `1` right
after a step that took the forced-break branch. -/
theorem fold_column_invariant (break_column : Int) (h : 2 ≤ break_column)
    (pre : List Char) (ch : Char) :
    fold_column break_column 0 [] = 0 ∧
    (∀ (fault eof : Bool) (rest d : List Char),
      fold_loop break_column fault eof (pre ++ rest) 0 ⟨d, none⟩ =
        fold_loop break_column fault eof rest (fold_column break_column 0 pre)
          ⟨d ++ (fold_trace break_column 0 pre).map Prod.snd, none⟩) ∧
    (0 ≤ fold_column break_column 0 pre ∧ fold_column break_column 0 pre ≤ break_column) ∧
    fold_column break_column 0 (pre ++ ['\n']) = 0 ∧
    (fold_column break_column 0 pre + 1 = break_column ∧ ch ≠ '\n' →
      fold_column break_column 0 (pre ++ [ch]) = 1) := by
  have hr := fold_column_range break_column h pre 0 (le_refl 0) (by omega)
  exact ⟨rfl, fun fault eof rest d => fold_loop_append break_column fault eof pre rest 0 d,
    ⟨hr.1, le_of_lt hr.2⟩, fold_column_line_feed break_column pre 0,
    fold_column_break break_column pre ch 0⟩

theorem fold_column_invariant_witness :
    (0 ≤ fold_column 3 0 ['a', 'b', 'c', 'd'] ∧ fold_column 3 0 ['a', 'b', 'c', 'd'] ≤ 3) ∧
    fold_column 3 0 (['a', 'b', 'c', 'd'] ++ ['\n']) = 0 ∧
    fold_column 3 0 (['a', 'b', 'c', 'd'] ++ ['e']) = 1 :=
  ⟨(fold_column_invariant 3 (by decide) ['a', 'b', 'c', 'd'] 'e').2.2.1,
    (fold_column_invariant 3 (by decide) ['a', 'b', 'c', 'd'] 'e').2.2.2.1,
    (fold_column_invariant 3 (by decide) ['a', 'b', 'c', 'd'] 'e').2.2.2.2
      ⟨by decide, by decide⟩⟩

/-- C16 (lines are folded independently).  For every `break_column` and all
inputs `x`, `y`: the output for `x`, a line feed, `y` is the output for `x`,
a line feed, the output for `y`.  The line feed is written as itself, right
after the trace of `x`, which never ends with an inserted line feed, and it
brings `column` back to `0`. -/
theorem fold_lines_independent (break_column : Int) (x y : List Char) :
    folded break_column (x ++ ['\n'] ++ y)
      = folded break_column x ++ ['\n'] ++ folded break_column y ∧
    fold_trace break_column 0 (x ++ ['\n'] ++ y)
      = fold_trace break_column 0 x ++ (false, '\n') :: fold_trace break_column 0 y ∧
    (∀ e, (fold_trace break_column 0 x).getLast? = some e → e.1 = false) ∧
    fold_column break_column 0 (x ++ ['\n']) = 0 := by
  refine ⟨?_, fold_trace_line_feed break_column x y 0,
    fold_trace_last_unmarked break_column x 0, fold_column_line_feed break_column x 0⟩
  rw [folded_eq_trace, folded_eq_trace, folded_eq_trace, fold_trace_line_feed]
  simp

/-! ## Fixed points, flag values, the precondition -/

/-- A stream all of whose stretches without line feed are shorter than `W`,
the first one even when `column` characters are put in front of it, `fits`. -/
theorem fits_of_runs (W : Int) (xs : List Char) :
    ∀ (column : Int),
      (∀ seg, seg <+: xs → '\n' ∉ seg → seg ≠ [] → column + (seg.length : Int) < W) →
      (∀ seg, seg <:+: xs → '\n' ∉ seg → (seg.length : Int) < W) →
      fits W column xs := by
  induction xs with
  | nil => intro column _ _; simp [fits]
  | cons ch rest ih =>
    intro column hpre hinf
    have hinf2 : ∀ seg, seg <:+: rest → '\n' ∉ seg → (seg.length : Int) < W :=
      fun seg hs hn => hinf seg (List.infix_cons hs) hn
    by_cases h2 : ch = '\n'
    · simp only [fits, if_pos h2]
      refine ih 0 (fun seg hs hn _ => ?_) hinf2
      have := hinf seg (List.infix_cons hs.isInfix) hn
      omega
    · simp only [fits, if_neg h2]
      constructor
      · have := hpre [ch] (by simp) (by simpa using Ne.symm h2) (by simp)
        simpa using this
      · refine ih (column + 1) (fun seg hs hn _ => ?_) hinf2
        have := hpre (ch :: seg) (List.cons_prefix_cons.2 ⟨rfl, hs⟩)
          (by
            intro hm
            rcases List.mem_cons.1 hm with h | h
            · exact h2 h.symm
            · exact hn h)
          (by simp)
        simp only [List.length_cons] at this
        push_cast at this
        omega

theorem folded_eq_self_iff_fits (W : Int) (hW : 2 ≤ W) (x : List Char) :
    folded W x = x ↔ fits W 0 x := by
  constructor
  · intro h
    have := fits_folded W hW x
    rwa [h] at this
  · intro h
    rw [folded_eq_trace]
    exact fold_trace_of_fits W x 0 h

theorem folded_eq_self_of_no_mark (W : Int) (x : List Char)
    (h : ∀ e ∈ fold_trace W 0 x, e.1 = false) : folded W x = x := by
  have hf : (fold_trace W 0 x).filter (fun e => !e.1) = fold_trace W 0 x := by
    rw [List.filter_eq_self]
    intro e he
    simp [h e he]
  have := fold_trace_unmarked W x 0
  rw [hf] at this
  rw [folded_eq_trace, this]

/-- C18 (fixed points).  For `W >= 2`, `fold` at width `W` returns `x`
unchanged exactly when every stretch of `x` without line feed (so every maximal
run between line feeds) has at most `W - 1` characters; and `fold` takes the
forced-break branch at least once exactly when `x` has a stretch of `W` or more
characters without line feed. -/
theorem fold_fixed_points (W : Int) (h : 2 ≤ W) (x : List Char) :
    (folded W x = x ↔
      ∀ seg, seg <:+: x → '\n' ∉ seg → (seg.length : Int) ≤ W - 1) ∧
    ((∃ e ∈ fold_trace W 0 x, e.1 = true) ↔
      ∃ seg, seg <:+: x ∧ '\n' ∉ seg ∧ W ≤ (seg.length : Int)) := by
  have key : folded W x = x ↔
      ∀ seg, seg <:+: x → '\n' ∉ seg → (seg.length : Int) ≤ W - 1 := by
    rw [folded_eq_self_iff_fits W h x]
    constructor
    · intro hf seg hs hn
      have := fits_run_lt W (by omega) x 0 seg (le_refl 0) hf hs hn
      omega
    · intro hr
      refine fits_of_runs W x 0 (fun seg hs hn _ => ?_) (fun seg hs hn => ?_)
      · have := hr seg hs.isInfix hn
        omega
      · have := hr seg hs hn
        omega
  refine ⟨key, ?_⟩
  constructor
  · rintro ⟨e, he, hm⟩
    by_contra hno
    have hall : ∀ seg, seg <:+: x → '\n' ∉ seg → (seg.length : Int) ≤ W - 1 := by
      intro seg hs hn
      by_contra hlt
      exact hno ⟨seg, hs, hn, by omega⟩
    have hfits := (folded_eq_self_iff_fits W h x).1 (key.2 hall)
    have := fold_trace_no_mark_of_fits W x 0 hfits e he
    rw [hm] at this
    exact Bool.noConfusion this
  · rintro ⟨seg, hs, hn, hlen⟩
    by_contra hno
    have hall : ∀ e ∈ fold_trace W 0 x, e.1 = false := by
      intro e he
      cases hb : e.1 with
      | false => rfl
      | true => exact absurd ⟨e, he, hb⟩ hno
    have := key.1 (folded_eq_self_of_no_mark W x hall) seg hs hn
    omega

theorem fold_fixed_points_witness :
    (2 : Int) ≤ 3 ∧
    (folded 3 ['a', 'b', '\n', 'c'] = ['a', 'b', '\n', 'c'] ↔
      ∀ seg, seg <:+: ['a', 'b', '\n', 'c'] → '\n' ∉ seg → (seg.length : Int) ≤ 3 - 1) ∧
    ((∃ e ∈ fold_trace 3 0 ['a', 'b', '\n', 'c'], e.1 = true) ↔
      ∃ seg, seg <:+: ['a', 'b', '\n', 'c'] ∧ '\n' ∉ seg ∧ (3 : Int) ≤ (seg.length : Int)) :=
  ⟨by decide, fold_fixed_points 3 (by decide) ['a', 'b', '\n', 'c']⟩

/-- C20 (the precondition is necessary).  At `break_column = 1` the input `abc`
is written as a line feed followed by `abc`: the output has a stretch of `3`
characters without line feed, `column` is `3` at the end, and folding the
output once more gives something else.  So the width bound, the column
invariant and idempotence all fail at `break_column = 1`. -/
theorem fold_precondition_necessary :
    folded 1 ['a', 'b', 'c'] = ['\n', 'a', 'b', 'c'] ∧
    (['a', 'b', 'c'] <:+: folded 1 ['a', 'b', 'c'] ∧ '\n' ∉ ['a', 'b', 'c']
      ∧ ¬ ((['a', 'b', 'c'] : List Char).length : Int) ≤ 1) ∧
    (fold_column 1 0 ['a'] = 1 ∧ fold_column 1 0 ['a', 'b'] = 2
      ∧ fold_column 1 0 ['a', 'b', 'c'] = 3 ∧ ¬ fold_column 1 0 ['a', 'b', 'c'] ≤ 1) ∧
    folded 1 (folded 1 ['a', 'b', 'c']) = ['\n', '\n', 'a', 'b', 'c'] ∧
    folded 1 (folded 1 ['a', 'b', 'c']) ≠ folded 1 ['a', 'b', 'c'] := by
  refine ⟨by decide, ⟨⟨['\n'], [], by decide⟩, by decide, by decide⟩, by decide, by decide,
    by decide⟩

/-! ## The lenient numeric parse -/

theorem isdigit_not_isspace (c : Char) (h : isdigit c = true) : isspace c = false := by
  simp only [isdigit, Bool.and_eq_true, decide_eq_true_eq] at h
  by_contra hs
  simp only [isspace, Bool.not_eq_false, Bool.or_eq_true, decide_eq_true_eq] at hs
  rcases hs with ((((rfl | rfl) | rfl) | rfl) | rfl) | rfl <;> exact absurd h.1 (by decide)

theorem isdigit_not_sign (c : Char) (h : isdigit c = true) : c ≠ '-' ∧ c ≠ '+' := by
  simp only [isdigit, Bool.and_eq_true, decide_eq_true_eq] at h
  constructor <;> rintro rfl <;> exact absurd h.1 (by decide)

theorem dropWhile_isspace_append (ws rest : List Char) (hws : ∀ c ∈ ws, isspace c = true)
    (hrest : ∀ c, rest.head? = some c → isspace c = false) :
    (ws ++ rest).dropWhile isspace = rest := by
  induction ws with
  | nil =>
    cases rest with
    | nil => rfl
    | cons c cs => simp [List.dropWhile, hrest c rfl]
  | cons w ws ih =>
    have hw : isspace w = true := hws w (List.mem_cons_self _ _)
    simp only [List.cons_append, List.dropWhile, hw]
    exact ih (fun c hc => hws c (List.mem_cons_of_mem _ hc))

theorem takeWhile_isdigit_append (ds junk : List Char) (hds : ∀ c ∈ ds, isdigit c = true)
    (hjunk : ∀ c, junk.head? = some c → isdigit c = false) :
    (ds ++ junk).takeWhile isdigit = ds := by
  induction ds with
  | nil =>
    cases junk with
    | nil => rfl
    | cons c cs => simp [List.takeWhile, hjunk c rfl]
  | cons d ds ih =>
    have hd : isdigit d = true := hds d (List.mem_cons_self _ _)
    simp only [List.cons_append, List.takeWhile, hd, List.append_eq]
    rw [ih (fun c hc => hds c (List.mem_cons_of_mem _ hc))]

theorem digitsValue_append (ds junk : List Char) (hds : ∀ c ∈ ds, isdigit c = true)
    (hjunk : ∀ c, junk.head? = some c → isdigit c = false) :
    digitsValue (ds ++ junk) = ds.foldl (fun n c => 10 * n + ((c.toNat : Int) - 48)) 0 := by
  rw [digitsValue, takeWhile_isdigit_append ds junk hds hjunk]

theorem atoi_plus (ws t : List Char) (hws : ∀ c ∈ ws, isspace c = true) :
    atoi (ws ++ '+' :: t) = digitsValue t := by
  rw [atoi, dropWhile_isspace_append ws ('+' :: t) hws
    (by intro c hc; simp at hc; subst hc; decide)]
  rfl

theorem atoi_minus (ws t : List Char) (hws : ∀ c ∈ ws, isspace c = true) :
    atoi (ws ++ '-' :: t) = - digitsValue t := by
  rw [atoi, dropWhile_isspace_append ws ('-' :: t) hws
    (by intro c hc; simp at hc; subst hc; decide)]
  rfl

theorem atoi_unsigned (ws t : List Char) (hws : ∀ c ∈ ws, isspace c = true)
    (ht : ∀ c, t.head? = some c → isspace c = false ∧ c ≠ '-' ∧ c ≠ '+') :
    atoi (ws ++ t) = digitsValue t := by
  rw [atoi, dropWhile_isspace_append ws t hws (fun c hc => (ht c hc).1)]
  cases t with
  | nil => rfl
  | cons c cs =>
    have h := ht c rfl
    split
    · next t' heq =>
      exact absurd (List.cons.inj heq).1 h.2.1
    · next t' heq =>
      exact absurd (List.cons.inj heq).1 h.2.2
    · rfl

theorem parse_single_width (flag value : List Char) (out error : OutFile) (bc : Int)
    (hf : is_width_flag flag) (hv : 2 ≤ atoi value) (hmax : atoi value ≤ 2147483647) :
    parse_command_line [flag, value] out error bc = ⟨0, out, error, atoi value⟩ := by
  rw [parse_width_pair flag value [] out error bc hf hv hmax]
  simp [parse_command_line]

/-- C13 (lenient width parse).  A token is split as whitespace `ws`, an optional
sign, decimal digits `ds` of value `n` (by Horner's rule), and `junk` that does
not start with a digit.  `atoi` reads `n` with a `+` sign or without sign, `-n`
with a `-` sign, and `0` when no digit stands where the number should start.
When `2 <= n` and `n` fits in an `int`, `parse_command_line` accepts the token
after a width flag and records the width `n`.  So ` +12abc` is read as `12`,
and `x` is read as `0` and rejected with the return value `2`. -/
theorem atoi_lenient_parse (ws ds junk flag : List Char) (n : Int) (out error : OutFile)
    (bc : Int) (hws : ∀ c ∈ ws, isspace c = true) (hds : ∀ c ∈ ds, isdigit c = true)
    (hjunk : ∀ c, junk.head? = some c → isdigit c = false)
    (hn : n = ds.foldl (fun m c => 10 * m + ((c.toNat : Int) - 48)) 0)
    (hflag : is_width_flag flag) :
    atoi (ws ++ '+' :: (ds ++ junk)) = n ∧
    atoi (ws ++ '-' :: (ds ++ junk)) = - n ∧
    (ds ≠ [] → atoi (ws ++ (ds ++ junk)) = n) ∧
    ((∀ c, junk.head? = some c → isspace c = false ∧ c ≠ '-' ∧ c ≠ '+') →
      atoi (ws ++ junk) = 0) ∧
    (2 ≤ n → n ≤ 2147483647 →
      parse_command_line [flag, ws ++ '+' :: (ds ++ junk)] out error bc
          = ⟨0, out, error, n⟩
        ∧ parse_command_line [flag, ws ++ (ds ++ junk)] out error bc
          = ⟨0, out, error, n⟩) ∧
    atoi [' ', '+', '1', '2', 'a', 'b', 'c'] = 12 ∧
    atoi ['x'] = 0 ∧
    parse_command_line [flag, ['x']] out error bc = ⟨2, out, print_usage error, bc⟩ := by
  have hval : digitsValue (ds ++ junk) = n := by
    rw [hn]
    exact digitsValue_append ds junk hds hjunk
  have hplus : atoi (ws ++ '+' :: (ds ++ junk)) = n := by
    rw [atoi_plus ws _ hws, hval]
  have hunsigned : ds ≠ [] → atoi (ws ++ (ds ++ junk)) = n := by
    intro hne
    rw [atoi_unsigned ws _ hws, hval]
    intro c hc
    cases ds with
    | nil => exact absurd rfl hne
    | cons d ds' =>
      simp only [List.cons_append, List.head?_cons, Option.some.injEq] at hc
      subst hc
      have hd := hds d (List.mem_cons_self _ _)
      exact ⟨isdigit_not_isspace d hd, isdigit_not_sign d hd⟩
  refine ⟨hplus, ?_, hunsigned, ?_, ?_, by decide, by decide,
    parse_width_small flag ['x'] [] out error bc hflag (by decide) (by decide)⟩
  · rw [atoi_minus ws _ hws, hval]
  · intro hj
    rw [atoi_unsigned ws junk hws hj]
    have := digitsValue_append [] junk (by simp) hjunk
    simpa using this
  · intro h2 hmax
    have hne : ds ≠ [] := by
      rintro rfl
      simp at hn
      omega
    constructor
    · have := parse_single_width flag (ws ++ '+' :: (ds ++ junk)) out error bc hflag
        (by rw [hplus]; exact h2) (by rw [hplus]; exact hmax)
      rw [hplus] at this
      exact this
    · have := parse_single_width flag (ws ++ (ds ++ junk)) out error bc hflag
        (by rw [hunsigned hne]; exact h2) (by rw [hunsigned hne]; exact hmax)
      rw [hunsigned hne] at this
      exact this

theorem atoi_lenient_parse_witness :
    (∀ c ∈ [' '], isspace c = true) ∧ (∀ c ∈ ['1', '2'], isdigit c = true) ∧
    (∀ c, (['a', 'b', 'c'] : List Char).head? = some c → isdigit c = false) ∧
    is_width_flag ['-', 'w'] ∧
    atoi ([' '] ++ '+' :: (['1', '2'] ++ ['a', 'b', 'c'])) = 12 ∧
    parse_command_line [['-', 'w'], [' '] ++ '+' :: (['1', '2'] ++ ['a', 'b', 'c'])]
        ⟨[], none⟩ ⟨[], none⟩ 80
      = ⟨0, ⟨[], none⟩, ⟨[], none⟩, 12⟩ :=
  have hws : ∀ c ∈ [' '], isspace c = true := by
    intro c hc
    rw [List.mem_singleton] at hc
    subst hc
    decide
  have hds : ∀ c ∈ ['1', '2'], isdigit c = true := by
    intro c hc
    rcases List.mem_cons.1 hc with rfl | hc
    · decide
    · rw [List.mem_singleton] at hc
      subst hc
      decide
  have hjunk : ∀ c, (['a', 'b', 'c'] : List Char).head? = some c → isdigit c = false := by
    intro c hc
    simp only [List.head?_cons, Option.some.injEq] at hc
    subst hc
    decide
  have key := atoi_lenient_parse [' '] ['1', '2'] ['a', 'b', 'c'] ['-', 'w'] 12
    ⟨[], none⟩ ⟨[], none⟩ 80 hws hds hjunk (by decide) (Or.inl rfl)
  ⟨hws, hds, hjunk, Or.inl rfl, key.1, (key.2.2.2.2.1 (by decide) (by decide)).1⟩

/-! ## The closed form on a line without line feed -/

theorem intercalate_line_feed_singleton (a : List Char) :
    List.intercalate ['\n'] [a] = a := by
  simp [List.intercalate, List.intersperse]

theorem intercalate_line_feed_cons (a b : List Char) (l : List (List Char)) :
    List.intercalate ['\n'] (a :: b :: l) = a ++ '\n' :: List.intercalate ['\n'] (b :: l) := by
  simp [List.intercalate, List.intersperse]

theorem fold_trace_countP_of_fits (W : Int) (xs : List Char) (column : Int)
    (h : fits W column xs) : (fold_trace W column xs).countP (fun e => e.1) = 0 := by
  rw [List.countP_eq_zero]
  intro e he
  simp [fold_trace_no_mark_of_fits W xs column h e he]

/-- The output for a line without line feed whose first character `c` has just
been written at column `1`: chunks of `k = W - 1` characters, the last one of
`1` to `k` characters, joined by the inserted line feeds. -/
theorem fold_trace_chunks (W : Int) (k : Nat) (hk : 1 ≤ k) (hW : W = (k : Int) + 1) (n : Nat) :
    ∀ (c : Char) (zs : List Char), zs.length ≤ n → '\n' ∉ zs →
      ∃ chunks : List (List Char),
        chunks ≠ [] ∧ chunks.flatten = c :: zs ∧
        c :: (fold_trace W 1 zs).map Prod.snd = List.intercalate ['\n'] chunks ∧
        (∀ l ∈ chunks.dropLast, l.length = k) ∧
        (∀ l, chunks.getLast? = some l → 1 ≤ l.length ∧ l.length ≤ k) ∧
        (fold_trace W 1 zs).countP (fun e => e.1) + 1 = chunks.length ∧
        chunks.length = zs.length / k + 1 := by
  induction n with
  | zero =>
    intro c zs hlen _
    have hz : zs = [] := List.length_eq_zero.1 (Nat.le_zero.1 hlen)
    subst hz
    refine ⟨[[c]], by simp, by simp, by simp [fold_trace, intercalate_line_feed_singleton],
      by simp, ?_, by simp [fold_trace], by simp⟩
    intro l hl
    simp at hl
    subst hl
    simpa using hk
  | succ n ih =>
    intro c zs hlen hn
    by_cases hshort : zs.length < k
    · have hf : fits W 1 zs := fits_of_no_line_feed W zs 1 hn (by omega)
      refine ⟨[c :: zs], by simp, by simp, ?_, by simp, ?_, ?_, ?_⟩
      · rw [fold_trace_of_fits W zs 1 hf, intercalate_line_feed_singleton]
      · intro l hl
        simp at hl
        subst hl
        simp only [List.length_cons]
        omega
      · rw [fold_trace_countP_of_fits W zs 1 hf]
        rfl
      · rw [Nat.div_eq_of_lt hshort]
        rfl
    · have hsplit : zs.take (k - 1) ++ zs.drop (k - 1) = zs := List.take_append_drop _ _
      have htl : (zs.take (k - 1)).length = k - 1 := by
        rw [List.length_take]
        omega
      have hdl : (zs.drop (k - 1)).length = zs.length - (k - 1) := List.length_drop _ _
      have hnt : '\n' ∉ zs.take (k - 1) := fun h => hn (List.mem_of_mem_take h)
      have hnd : '\n' ∉ zs.drop (k - 1) := fun h => hn (List.mem_of_mem_drop h)
      generalize zs.take (k - 1) = ys at hsplit htl hnt
      generalize zs.drop (k - 1) = d at hsplit hdl hnd
      match d, hdl, hnd, hsplit with
      | [], hdl, _, _ =>
        simp only [List.length_nil] at hdl
        omega
      | c' :: zs', hdl, hnd, hsplit =>
        simp only [List.length_cons] at hdl
        have hc' : c' ≠ '\n' := fun h => hnd (by simp [h])
        have hnz : '\n' ∉ zs' := fun h => hnd (List.mem_cons_of_mem _ h)
        have hzlen : zs.length = zs'.length + k := by omega
        obtain ⟨chunks, hne, hflat, hout, hfull, hlast, hcount, hnum⟩ :=
          ih c' zs' (by omega) hnz
        have hf : fits W 1 ys := fits_of_no_line_feed W ys 1 hnt (by omega)
        have hcol : fold_column W 1 ys = W - 1 := by
          rw [fold_column_of_no_line_feed W ys 1 hnt (by omega)]
          omega
        have htrace : fold_trace W 1 zs
            = fold_trace W 1 ys ++ (true, '\n') :: (false, c') :: fold_trace W 1 zs' := by
          rw [← hsplit, fold_trace_append, hcol]
          simp [fold_trace, hc']
        match chunks, hne with
        | b :: l, _ =>
          refine ⟨(c :: ys) :: b :: l, by simp, ?_, ?_, ?_, ?_, ?_, ?_⟩
          · rw [List.flatten_cons, hflat, ← hsplit]
            simp
          · rw [intercalate_line_feed_cons, ← hout, htrace, List.map_append,
              fold_trace_of_fits W ys 1 hf]
            simp
          · intro m hm
            rw [List.dropLast_cons_of_ne_nil (by simp)] at hm
            rcases List.mem_cons.1 hm with rfl | hm
            · simp only [List.length_cons]
              omega
            · exact hfull m hm
          · intro m hm
            rw [List.getLast?_cons_cons] at hm
            exact hlast m hm
          · rw [htrace, List.countP_append, fold_trace_countP_of_fits W ys 1 hf]
            simp only [List.countP_cons, List.length_cons] at hcount ⊢
            simp
            omega
          · simp only [List.length_cons] at hnum ⊢
            rw [hzlen, Nat.add_div_right _ (by omega)]
            omega

/-- C17 (closed form on an input without line feed).  For `W >= 2` and an input
`x` of `n >= 1` characters, none of them a line feed: the output of `fold` is
`x` cut into consecutive chunks joined by single line feeds; every chunk but
the last has exactly `W - 1` characters and the last has between `1` and
`W - 1`; the number of inserted line feeds is one less than the number of
chunks and equals `(n - 1) / (W - 1)` rounded down; and no stretch of the output
without line feed has `W` characters. -/
theorem fold_closed_form (W : Int) (h : 2 ≤ W) (x : List Char) (hx : x ≠ [])
    (hn : '\n' ∉ x) :
    ∃ chunks : List (List Char),
      chunks ≠ [] ∧ chunks.flatten = x ∧
      folded W x = List.intercalate ['\n'] chunks ∧
      (∀ l ∈ chunks.dropLast, (l.length : Int) = W - 1) ∧
      (∀ l, chunks.getLast? = some l → 1 ≤ l.length ∧ (l.length : Int) ≤ W - 1) ∧
      (fold_trace W 0 x).countP (fun e => e.1) + 1 = chunks.length ∧
      (((fold_trace W 0 x).countP (fun e => e.1) : Nat) : Int)
        = ((x.length : Int) - 1) / (W - 1) ∧
      (∀ seg, seg <:+: folded W x → '\n' ∉ seg → (seg.length : Int) < W) := by
  obtain ⟨k, hk⟩ : ∃ k : Nat, W = (k : Int) + 1 := ⟨(W - 1).toNat, by omega⟩
  have hk1 : 1 ≤ k := by omega
  match x, hx, hn with
  | c :: zs, _, hn =>
    have hc : c ≠ '\n' := fun hc => hn (by simp [hc])
    have hnz : '\n' ∉ zs := fun hm => hn (List.mem_cons_of_mem _ hm)
    have h01 : ¬ (1 : Int) = W := by omega
    have htrace : fold_trace W 0 (c :: zs) = (false, c) :: fold_trace W 1 zs := by
      simp [fold_trace, hc, h01]
    obtain ⟨chunks, hne, hflat, hout, hfull, hlast, hcount, hnum⟩ :=
      fold_trace_chunks W k hk1 hk zs.length c zs (le_refl _) hnz
    refine ⟨chunks, hne, hflat, ?_, ?_, ?_, ?_, ?_, ?_⟩
    · rw [folded_eq_trace, htrace, ← hout]
      rfl
    · intro l hl
      rw [hfull l hl, hk]
      omega
    · intro l hl
      have := hlast l hl
      exact ⟨this.1, by omega⟩
    · rw [htrace]
      simpa using hcount
    · have hcnt : (fold_trace W 0 (c :: zs)).countP (fun e => e.1) = zs.length / k := by
        rw [htrace]
        simp only [List.countP_cons]
        simp
        omega
      rw [hcnt, Int.natCast_div, hk]
      simp
    · intro seg hs hlf
      exact fits_run_lt W (by omega) (folded W (c :: zs)) 0 seg (le_refl 0)
        (fits_folded W h (c :: zs)) hs hlf

theorem fold_closed_form_witness :
    (2 : Int) ≤ 3 ∧ (['a', 'b', 'c', 'd', 'e'] : List Char) ≠ [] ∧
    '\n' ∉ ['a', 'b', 'c', 'd', 'e'] ∧
    folded 3 ['a', 'b', 'c', 'd', 'e'] = ['a', 'b', '\n', 'c', 'd', '\n', 'e'] ∧
    ∃ chunks : List (List Char),
      chunks ≠ [] ∧ chunks.flatten = ['a', 'b', 'c', 'd', 'e'] ∧
      folded 3 ['a', 'b', 'c', 'd', 'e'] = List.intercalate ['\n'] chunks ∧
      (∀ l ∈ chunks.dropLast, (l.length : Int) = 3 - 1) ∧
      (∀ l, chunks.getLast? = some l → 1 ≤ l.length ∧ (l.length : Int) ≤ 3 - 1) ∧
      (fold_trace 3 0 ['a', 'b', 'c', 'd', 'e']).countP (fun e => e.1) + 1 = chunks.length ∧
      (((fold_trace 3 0 ['a', 'b', 'c', 'd', 'e']).countP (fun e => e.1) : Nat) : Int)
        = (((['a', 'b', 'c', 'd', 'e'] : List Char).length : Int) - 1) / (3 - 1) ∧
      (∀ seg, seg <:+: folded 3 ['a', 'b', 'c', 'd', 'e'] → '\n' ∉ seg →
        (seg.length : Int) < 3) :=
  ⟨by decide, by decide, by decide, by decide,
    fold_closed_form 3 (by decide) ['a', 'b', 'c', 'd', 'e'] (by decide) (by decide)⟩

end Fold
